import Mathlib

/-!
Verification of the ZenHabit habit-tracker core (src/App.tsx, src/types.ts,
src/services/geminiService.ts) against its natural-language specification.

Calendar dates are ISO "YYYY-MM-DD" strings; the source compares them with
JavaScript string comparison, which is lexicographic, exactly as Lean's
String order. The week-window resolver works on JavaScript Date values;
those are modelled by days-since-epoch integers plus a time-of-day payload
(the runtime is taken to be UTC, so the local-time accessors getDay/getDate
and the UTC-based toISOString agree, and an ISO date string is represented
by its epoch-day number).
-/

namespace ZenHabit

/-- JavaScript string comparison a < b: lexicographic on the characters
(code points; the dates compared here are ASCII). -/
def strlt (a b : String) : Prop := a.data < b.data

instance (a b : String) : Decidable (strlt a b) :=
  inferInstanceAs (Decidable (a.data < b.data))

/-- JavaScript string comparison a <= b, the negation of b < a. -/
def strle (a b : String) : Prop := ¬ strlt b a

instance (a b : String) : Decidable (strle a b) :=
  inferInstanceAs (Decidable (¬ strlt b a))

/-- The empty string is lexicographically least. -/
theorem strle_empty (s : String) : strle "" s := by
  obtain ⟨l⟩ := s
  intro h
  cases h

/-- JavaScript String.prototype.trim: drop whitespace from both ends
(whitespace tested by Char.isWhitespace). -/
def jsTrim (s : String) : String :=
  String.mk (((s.data.dropWhile Char.isWhitespace).reverse.dropWhile Char.isWhitespace).reverse)

/-- Source: src/types.ts, enum Category. -/
inductive Category where
  | HEALTH | PRODUCTIVITY | MINDFULNESS | LEARNING | FITNESS | OTHER
  deriving DecidableEq

/-- Source: src/types.ts, the string union 'habit' | 'reminder' of the field
Habit.type, represented as a closed enumeration. -/
inductive HabitType where
  | habit | reminder
  deriving DecidableEq

/-- Source: src/types.ts, interface Habit. Optional fields become Option. -/
structure Habit where
  id : String
  title : String
  category : Category
  type : HabitType
  completedDates : List String
  createdAt : String
  archivedAt : Option String := none
  excludedDates : Option (List String) := none
  deriving DecidableEq

/-- Source: src/App.tsx lines 136-147, toggleHabit. Flips membership of
dateIso in the completedDates of the habit with the given id. -/
def toggleHabit (id dateIso : String) (habits : List Habit) : List Habit :=
  habits.map fun h =>
    if h.id ≠ id then h
    else
      if dateIso ∈ h.completedDates then
        { h with completedDates := h.completedDates.filter (fun d => d != dateIso) }
      else
        { h with completedDates := h.completedDates ++ [dateIso] }

/-- Source: src/App.tsx lines 149-159, toggleReminder. The source computes
today as getISODate(new Date()), the current real-world date, independent of
the viewed week; it is passed here as the explicit argument today. -/
def toggleReminder (id today : String) (habits : List Habit) : List Habit :=
  habits.map fun h =>
    if h.id ≠ id then h
    else
      if h.completedDates.length > 0 then { h with completedDates := [] }
      else { h with completedDates := [today] }

/-- Source: src/App.tsx lines 161-177, addHabit. The source rejects a title
that is empty after trimming, assigns id := Date.now().toString() (passed
here as newId), and sets createdAt to the viewed week's first day. -/
def addHabit (newId newHabitTitle : String) (newHabitType : HabitType)
    (weekStartIso : String) (habits : List Habit) : List Habit :=
  if jsTrim newHabitTitle = "" then habits
  else
    habits ++ [{ id := newId, title := newHabitTitle, category := Category.OTHER,
                 type := newHabitType, completedDates := [], excludedDates := some [],
                 createdAt := weekStartIso }]

/-- Source: src/App.tsx lines 181-216, deleteHabit. With a date it excludes
the habit for that single day (clearing any completion there); without a
date it archives when a completion strictly precedes the viewed week's
start (currentWeekStartIso = weekDates[0].iso) and hard-deletes otherwise. -/
def deleteHabit (id : String) (dateIso : Option String)
    (currentWeekStartIso : String) (habits : List Habit) : List Habit :=
  match habits.find? (fun h => h.id == id) with
  | none => habits
  | some habit =>
    match dateIso with
    | some date =>
      habits.map fun h =>
        if h.id ≠ id then h
        else
          let currentExcluded := h.excludedDates.getD []
          if date ∈ currentExcluded then h
          else
            { h with
              completedDates := h.completedDates.filter (fun d => d != date),
              excludedDates := some (currentExcluded ++ [date]) }
    | none =>
      if habit.completedDates.any (fun date => decide (strlt date currentWeekStartIso)) then
        habits.map fun h =>
          if h.id = id then { h with archivedAt := some currentWeekStartIso } else h
      else
        habits.filter (fun h => h.id != id)

/-- The spec's name for deleteHabit called with a date argument. -/
def excludeForDay (id date weekStartIso : String) (habits : List Habit) : List Habit :=
  deleteHabit id (some date) weekStartIso habits

/-- The spec's name for deleteHabit called without a date argument. -/
def removeOrArchive (id weekStartIso : String) (habits : List Habit) : List Habit :=
  deleteHabit id none weekStartIso habits

/-- Source: src/App.tsx lines 90-105, dailyHabits. The viewed week is given
by its first and last day's ISO strings (weekDates[0].iso, weekDates[6].iso).
The JavaScript falsiness test !h.createdAt is the empty-string test here. -/
def dailyHabits (currentWeekStart currentWeekEnd : String) (habits : List Habit) : List Habit :=
  habits.filter fun h =>
    decide (h.type = HabitType.habit) &&
    (match h.archivedAt with
     | none => true
     | some a => decide (strlt currentWeekStart a)) &&
    ((h.createdAt == "") || decide (strle h.createdAt currentWeekEnd))

/-- Source: src/App.tsx lines 107-113, reminders. Note the source filters
only on archivedAt, with no createdAt test. -/
def reminders (currentWeekStart : String) (habits : List Habit) : List Habit :=
  habits.filter fun h =>
    decide (h.type = HabitType.reminder) &&
    (match h.archivedAt with
     | none => true
     | some a => decide (strlt currentWeekStart a))

/-- Source: src/App.tsx line 118 and line 424: the habits of the week not
excluded for the given day (dh is the dailyHabits list). -/
def activeHabitsForDay (dayIso : String) (dh : List Habit) : List Habit :=
  dh.filter fun h => !((h.excludedDates.getD []).contains dayIso)

/-- Source: src/types.ts, interface WeeklyDataPoint. The display-only field
day (the short weekday name) is omitted; fullDate identifies the day. -/
structure WeeklyDataPoint where
  fullDate : String
  completed : Nat
  total : Nat
  deriving DecidableEq

/-- Source: src/App.tsx lines 115-129, weeklyDataPoints. weekIsos is the list
of the week's ISO dates (weekDates.map(d => d.iso)); dh is dailyHabits. The
reduce with (includes ? 1 : 0) is a count. -/
def weeklyDataPoints (weekIsos : List String) (dh : List Habit) : List WeeklyDataPoint :=
  weekIsos.map fun iso =>
    let active := activeHabitsForDay iso dh
    { fullDate := iso,
      completed := active.countP (fun h => h.completedDates.contains iso),
      total := active.length }

/-- Source: src/App.tsx line 131. -/
def totalWeeklyTasks (weekIsos : List String) (dh : List Habit) : Nat :=
  (weeklyDataPoints weekIsos dh).foldl (fun acc day => acc + day.total) 0

/-- Source: src/App.tsx line 132. -/
def completedWeeklyTasks (weekIsos : List String) (dh : List Habit) : Nat :=
  (weeklyDataPoints weekIsos dh).foldl (fun acc day => acc + day.completed) 0

/-- Source: src/App.tsx line 133. The source computes a percentage in
floating point; ratios of small naturals are modelled exactly in ℚ. -/
def weeklyCompletionRate (weekIsos : List String) (dh : List Habit) : ℚ :=
  if totalWeeklyTasks weekIsos dh > 0 then
    ((completedWeeklyTasks weekIsos dh : ℚ) / (totalWeeklyTasks weekIsos dh : ℚ)) * 100
  else 0

/-- Source: src/App.tsx line 426. -/
def dayCompletedCount (dayIso : String) (dh : List Habit) : Nat :=
  ((activeHabitsForDay dayIso dh).filter (fun h => h.completedDates.contains dayIso)).length

/-- Source: src/App.tsx line 427. -/
def dayTotalCount (dayIso : String) (dh : List Habit) : Nat :=
  (activeHabitsForDay dayIso dh).length

/-- Source: src/App.tsx line 428, the per-day donut percentage. -/
def dayPercentage (dayIso : String) (dh : List Habit) : ℚ :=
  if dayTotalCount dayIso dh > 0 then
    ((dayCompletedCount dayIso dh : ℚ) / (dayTotalCount dayIso dh : ℚ)) * 100
  else 0

/-- One user action of the mutation engine (spec section 4.4). Operations
that the source resolves against ambient component state carry that state
explicitly: the viewed week's first day for create/exclude/remove, and the
current real-world date for toggleRem. -/
inductive Op where
  | toggle (id dateIso : String)
  | toggleRem (id today : String)
  | create (newId title : String) (kind : HabitType) (weekStartIso : String)
  | exclude (id dateIso weekStartIso : String)
  | remove (id weekStartIso : String)
  deriving DecidableEq

/-- One step of the mutation engine. -/
def applyOp : Op → List Habit → List Habit
  | .toggle id d, hs => toggleHabit id d hs
  | .toggleRem id t, hs => toggleReminder id t hs
  | .create i t k w, hs => addHabit i t k w hs
  | .exclude id d w, hs => excludeForDay id d w hs
  | .remove id w, hs => removeOrArchive id w hs

/-- A sequence of mutations applied left to right. -/
def applyOps : List Op → List Habit → List Habit
  | [], hs => hs
  | op :: ops, hs => applyOps ops (applyOp op hs)

/-- The section-3 invariant: no habit has a date in both completedDates and
excludedDates. -/
def NoOverlap (hs : List Habit) : Prop :=
  ∀ h ∈ hs, ∀ d ∈ h.completedDates, d ∉ h.excludedDates.getD []

instance (hs : List Habit) : Decidable (NoOverlap hs) :=
  inferInstanceAs (Decidable (∀ h ∈ hs, ∀ d ∈ h.completedDates, d ∉ h.excludedDates.getD []))

/-- The proviso under which a single operation preserves the invariant: a
completion toggle must not target a date currently excluded for the habit,
and a reminder toggle must not record a date currently excluded for it (the
UI guarantees the former by only offering toggles on day-active habits). -/
def SafeOp : Op → List Habit → Prop
  | .toggle id d, hs => ∀ h ∈ hs, h.id = id → d ∉ h.excludedDates.getD []
  | .toggleRem id t, hs => ∀ h ∈ hs, h.id = id → t ∉ h.excludedDates.getD []
  | .create _ _ _ _, _ => True
  | .exclude _ _ _, _ => True
  | .remove _ _, _ => True

instance : (op : Op) → (hs : List Habit) → Decidable (SafeOp op hs)
  | .toggle id d, hs =>
    inferInstanceAs (Decidable (∀ h ∈ hs, h.id = id → d ∉ h.excludedDates.getD []))
  | .toggleRem id t, hs =>
    inferInstanceAs (Decidable (∀ h ∈ hs, h.id = id → t ∉ h.excludedDates.getD []))
  | .create _ _ _ _, _ => inferInstanceAs (Decidable True)
  | .exclude _ _ _, _ => inferInstanceAs (Decidable True)
  | .remove _ _, _ => inferInstanceAs (Decidable True)

/-- Every operation of the sequence is safe at the state it is applied to. -/
def SafeTrace : List Op → List Habit → Prop
  | [], _ => True
  | op :: ops, hs => SafeOp op hs ∧ SafeTrace ops (applyOp op hs)

instance instDecSafeTrace : (ops : List Op) → (hs : List Habit) → Decidable (SafeTrace ops hs)
  | [], _ => inferInstanceAs (Decidable True)
  | _ :: ops, hs => @instDecidableAnd _ _ _ (instDecSafeTrace ops (applyOp _ hs))

/-- Source: a JavaScript Date instant, modelled (under a UTC runtime) by its
days-since-epoch number together with the time of day in milliseconds. -/
structure DateVal where
  day : Int
  tod : Nat
  deriving DecidableEq

/-- Source: Date.prototype.getDay (0 = Sunday). Epoch day 0, 1970-01-01, was
a Thursday, weekday 4. -/
def getDayOfWeek (d : DateVal) : Int := (d.day + 4) % 7

/-- Source: src/App.tsx line 10, getISODate: toISOString().split('T')[0]. The
ISO date string of an instant is represented by its epoch-day number (the
string-to-day correspondence is strictly monotone and injective). -/
def getISODate (d : DateVal) : Int := d.day

/-- Source: src/App.tsx lines 12-17, getWeekStart: subtract the weekday from
the day of month (setDate rolls over month boundaries, so the effect is
subtracting getDay() days), preserving the time of day. -/
def getWeekStart (d : DateVal) : DateVal := ⟨d.day - getDayOfWeek d, d.tod⟩

/-- Source: src/App.tsx lines 19-23, addDays. -/
def addDays (d : DateVal) (n : Int) : DateVal := ⟨d.day + n, d.tod⟩

/-- Source: toLocaleDateString('en-US', weekday long), tabulated by weekday. -/
def weekdayNames : List String :=
  ["Sunday", "Monday", "Tuesday", "Wednesday", "Thursday", "Friday", "Saturday"]

/-- Source: toLocaleDateString('en-US', weekday short), tabulated by weekday. -/
def shortWeekdayNames : List String :=
  ["Sun", "Mon", "Tue", "Wed", "Thu", "Fri", "Sat"]

/-- Source: src/App.tsx lines 80-86, the per-day descriptor of weekDates.
The display-only formattedDate (dd.mm.yyyy) is omitted. -/
structure DayDescriptor where
  iso : Int
  dayName : String
  shortDay : String
  deriving DecidableEq

/-- Default descriptor used only as the List.getD fallback. -/
def defaultDescriptor : DayDescriptor := ⟨0, "", ""⟩

/-- Source: src/App.tsx lines 80-86, one element of weekDates. -/
def mkDayDescriptor (d : DateVal) : DayDescriptor :=
  { iso := getISODate d,
    dayName := weekdayNames.getD (getDayOfWeek d).toNat "",
    shortDay := shortWeekdayNames.getD (getDayOfWeek d).toNat "" }

/-- Source: src/App.tsx lines 77-88, weekDates built from weekStart. -/
def weekDates (weekStart : DateVal) : List DayDescriptor :=
  (List.range 7).map fun (i : Nat) => mkDayDescriptor (addDays weekStart (i : Int))

/-- Source: src/App.tsx line 75 composed with lines 77-88: the resolved week
window of a reference date. -/
def weekWindow (d : DateVal) : List DayDescriptor := weekDates (getWeekStart d)

/-- Source: new Date("YYYY-MM-DD") parses an ISO date string as UTC
midnight of that calendar day. -/
def dateOfIso (iso : Int) : DateVal := ⟨iso, 0⟩

/-- Source: src/services/geminiService.ts: the outcome of the external
generateContent call, either a thrown failure or a response whose text field
may be absent (the source reads response.text || ""). -/
inductive AIResponse where
  | failure
  | success (text : Option String)

/-- Source: src/services/geminiService.ts lines 45-49, the fixed fallback. -/
def fallbackTips : List String :=
  ["Keep consistent! Tracking is the first step to improvement.",
   "Try to perform your most difficult habits earlier in the day.",
   "Review your progress weekly to stay on track."]

/-- Source: src/services/geminiService.ts line 39: strip one leading
character of the regex class and the whitespace after it, then trim. The
class in the file is literally the characters U+00E2, U+20AC, U+00A2
(the bytes of U+2022 misdecoded, as the line's own Remove-bullet-points
comment shows), together with the hyphen and the asterisk; the actual
bullet character U+2022 is not in the class. -/
def cleanLine (s : String) : String :=
  jsTrim (String.mk
    (match s.data with
     | [] => []
     | c :: rest =>
       if c = 'â' ∨ c = '€' ∨ c = '¢' ∨ c = '-' ∨ c = '*' then
         rest.dropWhile Char.isWhitespace
       else c :: rest))

/-- JavaScript String.prototype.split('\n') on the character list: every
newline separates, and empty segments are kept. -/
def splitOnNl : List Char → List (List Char)
  | [] => [[]]
  | c :: rest =>
    match splitOnNl rest with
    | [] => [[]]
    | line :: r => if c = '\n' then [] :: line :: r else (c :: line) :: r

/-- The lines of a string, as JavaScript text.split('\n') produces them. -/
def splitLines (s : String) : List String := (splitOnNl s.data).map String.mk

/-- Source: src/services/geminiService.ts lines 14-51, getHabitAnalysis,
with the external call's outcome as the argument: on a thrown error the
fixed fallback tips, otherwise split on newlines, clean each line, keep
lines longer than 5 characters, take the first 3. -/
def getHabitAnalysis (response : AIResponse) : List String :=
  match response with
  | .failure => fallbackTips
  | .success t =>
    let text := t.getD ""
    (((splitLines text).map cleanLine).filter (fun line => line.length > 5)).take 3

/-- Concrete habit with pre-week history, used to instantiate theorems. -/
def sampleHabit : Habit :=
  ⟨"1", "run", Category.OTHER, HabitType.habit,
   ["2024-02-01", "2024-03-05"], "2024-01-01", none, some []⟩

/-- Concrete week of ISO dates used to instantiate theorems. -/
def sampleWeek : List String :=
  ["2024-03-10", "2024-03-11", "2024-03-12", "2024-03-13",
   "2024-03-14", "2024-03-15", "2024-03-16"]

theorem forall2_map_self {α : Type} (R : α → α → Prop) (f : α → α) :
    ∀ l : List α, (∀ a ∈ l, R a (f a)) → List.Forall₂ R l (l.map f) := by
  intro l h
  induction l with
  | nil => exact List.Forall₂.nil
  | cons a t ih =>
    exact List.Forall₂.cons (h a (List.mem_cons_self a t))
      (ih fun x hx => h x (List.mem_cons_of_mem a hx))

theorem map_eq_self_of_fix {α : Type} (f : α → α) :
    ∀ l : List α, (∀ a ∈ l, f a = a) → l.map f = l := by
  intro l h
  induction l with
  | nil => rfl
  | cons a t ih =>
    simp only [List.map_cons, h a (List.mem_cons_self a t),
      ih fun x hx => h x (List.mem_cons_of_mem a hx)]

/-- C10: toggleCompletion changes at most the completedDates field of the
habit with the given id: its other fields are unchanged, every other habit
is unchanged, and the collection's length and ordering are preserved. -/
theorem toggleHabit_frame (id dateIso : String) (hs : List Habit) :
    (toggleHabit id dateIso hs).length = hs.length ∧
    List.Forall₂ (fun h h2 =>
        h2.id = h.id ∧ h2.title = h.title ∧ h2.category = h.category ∧
        h2.type = h.type ∧ h2.createdAt = h.createdAt ∧ h2.archivedAt = h.archivedAt ∧
        h2.excludedDates = h.excludedDates ∧ (h.id ≠ id → h2 = h))
      hs (toggleHabit id dateIso hs) := by
  refine ⟨by simp [toggleHabit], ?_⟩
  apply forall2_map_self
  intro h _
  by_cases hid : h.id = id
  · by_cases hmem : dateIso ∈ h.completedDates <;>
      simp [hid, hmem]
  · simp [hid]

theorem toggleHabit_frame_witness :
    (toggleHabit "1" "2024-03-11" [sampleHabit]).length = [sampleHabit].length :=
  (toggleHabit_frame "1" "2024-03-11" [sampleHabit]).1

/-- C8: toggleReminderDone sets the habit's completedDates to the singleton
holding today's real-world date when it was empty and clears it to empty
otherwise; today is the argument the source computes as getISODate(new
Date()), independent of the viewed week, and no other field or habit
changes. -/
theorem toggleReminder_spec (id today : String) (hs : List Habit) :
    (toggleReminder id today hs).length = hs.length ∧
    List.Forall₂ (fun h h2 =>
        h2.id = h.id ∧ h2.title = h.title ∧ h2.category = h.category ∧
        h2.type = h.type ∧ h2.createdAt = h.createdAt ∧ h2.archivedAt = h.archivedAt ∧
        h2.excludedDates = h.excludedDates ∧
        (h.id = id → h.completedDates = [] → h2.completedDates = [today]) ∧
        (h.id = id → h.completedDates ≠ [] → h2.completedDates = []) ∧
        (h.id ≠ id → h2 = h))
      hs (toggleReminder id today hs) := by
  refine ⟨by simp [toggleReminder], ?_⟩
  apply forall2_map_self
  intro h _
  by_cases hid : h.id = id
  · by_cases hlen : h.completedDates = [] <;>
      simp [hid, hlen, List.length_pos]
  · simp [hid]

theorem toggleReminder_spec_witness :
    (toggleReminder "1" "2024-03-20" [sampleHabit]).length = [sampleHabit].length :=
  (toggleReminder_spec "1" "2024-03-20" [sampleHabit]).1

/-- Concrete reminder whose createdAt lies after the sample week. -/
def sampleReminder : Habit :=
  ⟨"r1", "call", Category.OTHER, HabitType.reminder, [], "2024-03-20", none, some []⟩

/-- The JavaScript falsiness guard on createdAt collapses into the plain
comparison, because the empty string is lexicographically least. -/
theorem created_gate (c we : String) : (c = "" ∨ strle c we) ↔ strle c we :=
  ⟨fun h => h.elim (fun e => e ▸ strle_empty we) id, Or.inr⟩

theorem mem_dailyHabits (ws we : String) (hs : List Habit) (h : Habit) :
    h ∈ dailyHabits ws we hs ↔
      h ∈ hs ∧ h.type = HabitType.habit ∧ strle h.createdAt we ∧
      (h.archivedAt = none ∨ ∃ a, h.archivedAt = some a ∧ strlt ws a) := by
  rw [dailyHabits, List.mem_filter]
  refine and_congr_right fun _ => ?_
  cases harch : h.archivedAt with
  | none =>
    simp only [Bool.and_eq_true, decide_eq_true_eq, Bool.or_eq_true, beq_iff_eq,
      harch, reduceCtorEq, false_and, exists_false, or_false, true_and, created_gate]
    tauto
  | some a =>
    simp only [Bool.and_eq_true, decide_eq_true_eq, Bool.or_eq_true, beq_iff_eq,
      harch, Option.some.injEq, reduceCtorEq, false_or, created_gate, and_assoc]
    constructor
    · rintro ⟨ht, hlt, hc⟩
      exact ⟨ht, hc, a, rfl, hlt⟩
    · rintro ⟨ht, hc, a2, ha2, hlt⟩
      cases ha2
      exact ⟨ht, hlt, hc⟩

/-- C2: the habits of kind habit visible for a week are exactly those with
createdAt at most the week's last day and archivedAt unset or after the
week's first day; in particular a habit archived on or before the week
start is absent, one satisfying both gates is present, and one created and
archived within the week (archival date after the week start) is present. -/
theorem dailyHabits_spec (ws we : String) (hs : List Habit) :
    (∀ h, h ∈ dailyHabits ws we hs ↔
        h ∈ hs ∧ h.type = HabitType.habit ∧ strle h.createdAt we ∧
        (h.archivedAt = none ∨ ∃ a, h.archivedAt = some a ∧ strlt ws a)) ∧
    (∀ h ∈ hs, ∀ a, h.archivedAt = some a → strle a ws → h ∉ dailyHabits ws we hs) ∧
    (∀ h ∈ hs, h.type = HabitType.habit → strle h.createdAt we →
        (h.archivedAt = none ∨ ∃ a, h.archivedAt = some a ∧ strlt ws a) →
        h ∈ dailyHabits ws we hs) ∧
    (∀ h ∈ hs, h.type = HabitType.habit → strle ws h.createdAt → strle h.createdAt we →
        ∀ a, h.archivedAt = some a → strlt ws a → strle a we →
        h ∈ dailyHabits ws we hs) := by
  refine ⟨mem_dailyHabits ws we hs, ?_, ?_, ?_⟩
  · intro h _ a harch hle hin
    rcases ((mem_dailyHabits ws we hs h).mp hin).2.2.2 with hnone | ⟨a2, ha2, hlt⟩
    · rw [harch] at hnone
      cases hnone
    · rw [harch] at ha2
      cases ha2
      exact hle hlt
  · intro h hmem htype hc hgate
    exact (mem_dailyHabits ws we hs h).mpr ⟨hmem, htype, hc, hgate⟩
  · intro h hmem htype _ hc a harch hlt _
    exact (mem_dailyHabits ws we hs h).mpr ⟨hmem, htype, hc, Or.inr ⟨a, harch, hlt⟩⟩

theorem dailyHabits_spec_witness :
    sampleHabit ∈ dailyHabits "2024-03-10" "2024-03-16" [sampleHabit] :=
  (dailyHabits_spec "2024-03-10" "2024-03-16" [sampleHabit]).2.2.1 sampleHabit
    (by decide) (by decide) (by decide) (Or.inl rfl)

/-- C4 counterexample: a reminder created after the viewed week's end is
nevertheless shown for that week (the source's reminders filter never
consults createdAt), contradicting gating identical to habits. -/
theorem reminders_createdAt_cex :
    sampleReminder ∈ reminders "2024-03-10" [sampleReminder] ∧
    ¬ strle sampleReminder.createdAt "2024-03-16" := by decide

/-- C4 (amended): a reminder is shown for a week exactly when its archivedAt
is unset or after the week's first day; createdAt is not consulted. -/
theorem reminders_spec (ws : String) (hs : List Habit) :
    ∀ h, h ∈ reminders ws hs ↔
      h ∈ hs ∧ h.type = HabitType.reminder ∧
      (h.archivedAt = none ∨ ∃ a, h.archivedAt = some a ∧ strlt ws a) := by
  intro h
  rw [reminders, List.mem_filter]
  refine and_congr_right fun _ => ?_
  cases harch : h.archivedAt with
  | none =>
    simp [harch]
  | some a =>
    simp only [Bool.and_eq_true, decide_eq_true_eq, harch, Option.some.injEq,
      reduceCtorEq, false_or, and_assoc]
    constructor
    · rintro ⟨ht, hlt⟩
      exact ⟨ht, a, rfl, hlt⟩
    · rintro ⟨ht, a2, ha2, hlt⟩
      cases ha2
      exact ⟨ht, hlt⟩

theorem reminders_spec_witness :
    sampleReminder ∈ reminders "2024-03-10" [sampleReminder] :=
  (reminders_spec "2024-03-10" [sampleReminder] sampleReminder).mpr
    ⟨by decide, rfl, Or.inl rfl⟩

/-- C1: removeOrArchive soft-deletes exactly when the habit has a
completion strictly before the viewed week's start: then the habit stays
in the collection with archivedAt set to the week start and completedDates
unchanged (and every other habit untouched); otherwise the habit is removed
from the collection entirely. -/
theorem removeOrArchive_spec (id ws : String) (hs : List Habit) (habit : Habit)
    (hfind : hs.find? (fun h => h.id == id) = some habit) :
    ((∃ d ∈ habit.completedDates, strlt d ws) →
        removeOrArchive id ws hs =
          hs.map (fun h => if h.id = id then { h with archivedAt := some ws } else h) ∧
        ∃ h2 ∈ removeOrArchive id ws hs,
          h2.id = habit.id ∧ h2.archivedAt = some ws ∧
          h2.completedDates = habit.completedDates) ∧
    ((∀ d ∈ habit.completedDates, ¬ strlt d ws) →
        removeOrArchive id ws hs = hs.filter (fun h => h.id != id) ∧
        ∀ h2 ∈ removeOrArchive id ws hs, h2.id ≠ id) := by
  have hmem : habit ∈ hs := List.mem_of_find?_eq_some hfind
  have hid : habit.id = id := by
    have := List.find?_some hfind
    simpa [beq_iff_eq] using this
  constructor
  · intro hex
    have hany : habit.completedDates.any (fun d => decide (strlt d ws)) = true := by
      rw [List.any_eq_true]
      obtain ⟨d, hd, hlt⟩ := hex
      exact ⟨d, hd, by simpa using hlt⟩
    have heq : removeOrArchive id ws hs =
        hs.map (fun h => if h.id = id then { h with archivedAt := some ws } else h) := by
      simp only [removeOrArchive, deleteHabit, hfind, hany, if_true]
    refine ⟨heq, ?_⟩
    rw [heq]
    refine ⟨_, List.mem_map_of_mem _ hmem, ?_⟩
    simp [hid]
  · intro hall
    have hany : habit.completedDates.any (fun d => decide (strlt d ws)) = false := by
      cases hb : habit.completedDates.any (fun d => decide (strlt d ws)) with
      | false => rfl
      | true =>
        obtain ⟨d, hd, hp⟩ := List.any_eq_true.mp hb
        exact absurd (of_decide_eq_true hp) (hall d hd)
    have heq : removeOrArchive id ws hs = hs.filter (fun h => h.id != id) := by
      simp only [removeOrArchive, deleteHabit, hfind, hany, Bool.false_eq_true, if_false]
    refine ⟨heq, ?_⟩
    intro h2 h2mem
    rw [heq, List.mem_filter] at h2mem
    exact bne_iff_ne.mp h2mem.2

theorem removeOrArchive_spec_witness :
    removeOrArchive "1" "2024-03-10" [sampleHabit] =
      [{ sampleHabit with archivedAt := some "2024-03-10" }] := by
  have h := ((removeOrArchive_spec "1" "2024-03-10" [sampleHabit] sampleHabit rfl).1
    ⟨"2024-02-01", by decide, by decide⟩).1
  exact h.trans (by decide)

/-- The per-habit transformation of excludeForDay, identical to the map
body of the dateIso branch of deleteHabit. -/
def exclStep (id date : String) (h : Habit) : Habit :=
  if h.id ≠ id then h
  else
    let currentExcluded := h.excludedDates.getD []
    if date ∈ currentExcluded then h
    else
      { h with
        completedDates := h.completedDates.filter (fun d => d != date),
        excludedDates := some (currentExcluded ++ [date]) }

theorem exclStep_id (id date : String) (h : Habit) : (exclStep id date h).id = h.id := by
  unfold exclStep
  by_cases hid : h.id = id
  · by_cases hmem : date ∈ h.excludedDates.getD [] <;> simp [hid, hmem]
  · simp [hid]

theorem exclStep_idem (id date : String) (h : Habit) :
    exclStep id date (exclStep id date h) = exclStep id date h := by
  by_cases hid : h.id = id
  · by_cases hmem : date ∈ h.excludedDates.getD []
    · simp [exclStep, hid, hmem]
    · have h1 : exclStep id date h =
          { h with
            completedDates := h.completedDates.filter (fun d => d != date),
            excludedDates := some (h.excludedDates.getD [] ++ [date]) } := by
        simp [exclStep, hid, hmem]
      rw [h1]
      simp [exclStep, hid]
  · simp [exclStep, hid]

theorem excludeForDay_eq_map (id date ws : String) (hs : List Habit) (habit : Habit)
    (hfind : hs.find? (fun h => h.id == id) = some habit) :
    excludeForDay id date ws hs = hs.map (exclStep id date) := by
  simp only [excludeForDay, deleteHabit, hfind]
  rfl

/-- C5: excludeForDay is idempotent; when the date is not yet excluded for
the habit one application adds it to excludedDates and strips it from
completedDates, and when every habit bearing the id already excludes the
date the collection is returned unchanged. -/
theorem excludeForDay_spec (id date ws : String) (hs : List Habit) :
    excludeForDay id date ws (excludeForDay id date ws hs) = excludeForDay id date ws hs ∧
    ((∀ h ∈ hs, h.id = id → date ∈ h.excludedDates.getD []) →
        excludeForDay id date ws hs = hs) ∧
    (∀ h ∈ hs, h.id = id → date ∉ h.excludedDates.getD [] →
        ∃ h2 ∈ excludeForDay id date ws hs,
          h2.id = h.id ∧
          h2.completedDates = h.completedDates.filter (fun d => d != date) ∧
          h2.excludedDates = some (h.excludedDates.getD [] ++ [date])) := by
  cases hfind : hs.find? (fun h => h.id == id) with
  | none =>
    have heq : excludeForDay id date ws hs = hs := by
      simp only [excludeForDay, deleteHabit, hfind]
    have hnone := List.find?_eq_none.mp hfind
    refine ⟨?_, fun _ => heq, ?_⟩
    · rw [heq]
      exact heq
    · intro h hh hid _
      exact absurd (by simpa [beq_iff_eq] using hnone h hh) (not_not_intro hid)
  | some habit =>
    have heq := excludeForDay_eq_map id date ws hs habit hfind
    have hfind2 : (hs.map (exclStep id date)).find? (fun h => h.id == id) =
        some (exclStep id date habit) := by
      rw [List.find?_map]
      have hcong : List.find? ((fun h => h.id == id) ∘ exclStep id date) hs =
          List.find? (fun h => h.id == id) hs := by
        apply congrArg (fun p => List.find? p hs)
        funext h
        simp [Function.comp, exclStep_id]
      rw [hcong, hfind]
      rfl
    refine ⟨?_, ?_, ?_⟩
    · rw [heq, excludeForDay_eq_map id date ws _ _ hfind2, List.map_map]
      have : exclStep id date ∘ exclStep id date = exclStep id date :=
        funext (exclStep_idem id date)
      rw [this]
    · intro hall
      rw [heq]
      apply map_eq_self_of_fix
      intro h hh
      by_cases hid : h.id = id
      · simp [exclStep, hid, hall h hh hid]
      · simp [exclStep, hid]
    · intro h hh hid hnmem
      rw [heq]
      refine ⟨exclStep id date h, List.mem_map_of_mem _ hh, ?_⟩
      simp [exclStep, hid, hnmem]

theorem excludeForDay_spec_witness :
    ∃ h2 ∈ excludeForDay "1" "2024-03-05" "2024-03-10" [sampleHabit],
      h2.id = sampleHabit.id ∧
      h2.completedDates = sampleHabit.completedDates.filter (fun d => d != "2024-03-05") ∧
      h2.excludedDates = some (sampleHabit.excludedDates.getD [] ++ ["2024-03-05"]) :=
  (excludeForDay_spec "1" "2024-03-05" "2024-03-10" [sampleHabit]).2.2 sampleHabit
    (by decide) rfl (by decide)

theorem noOverlap_toggleHabit (id date : String) (hs : List Habit)
    (hinv : NoOverlap hs)
    (hsafe : ∀ h ∈ hs, h.id = id → date ∉ h.excludedDates.getD []) :
    NoOverlap (toggleHabit id date hs) := by
  intro h2 h2mem
  obtain ⟨h, hh, rfl⟩ := List.mem_map.mp h2mem
  intro d hd
  by_cases hid : h.id = id
  · rw [if_neg (not_not_intro hid)] at hd ⊢
    by_cases hmem : date ∈ h.completedDates
    · rw [if_pos hmem] at hd ⊢
      simp only [List.mem_filter] at hd
      exact hinv h hh d hd.1
    · rw [if_neg hmem] at hd ⊢
      simp only [List.mem_append, List.mem_singleton] at hd
      rcases hd with hd | rfl
      · exact hinv h hh d hd
      · exact hsafe h hh hid
  · rw [if_pos hid] at hd ⊢
    exact hinv h hh d hd

theorem noOverlap_toggleReminder (id today : String) (hs : List Habit)
    (hinv : NoOverlap hs)
    (hsafe : ∀ h ∈ hs, h.id = id → today ∉ h.excludedDates.getD []) :
    NoOverlap (toggleReminder id today hs) := by
  intro h2 h2mem
  obtain ⟨h, hh, rfl⟩ := List.mem_map.mp h2mem
  intro d hd
  by_cases hid : h.id = id
  · rw [if_neg (not_not_intro hid)] at hd ⊢
    by_cases hlen : h.completedDates.length > 0
    · rw [if_pos hlen] at hd ⊢
      simp at hd
    · rw [if_neg hlen] at hd ⊢
      simp only [List.mem_singleton] at hd
      subst hd
      exact hsafe h hh hid
  · rw [if_pos hid] at hd ⊢
    exact hinv h hh d hd

theorem noOverlap_addHabit (i t : String) (k : HabitType) (w : String)
    (hs : List Habit) (hinv : NoOverlap hs) : NoOverlap (addHabit i t k w hs) := by
  unfold addHabit
  by_cases ht : jsTrim t = ""
  · rw [if_pos ht]
    exact hinv
  · rw [if_neg ht]
    intro h2 h2mem d hd
    rcases List.mem_append.mp h2mem with hmem | hmem
    · exact hinv h2 hmem d hd
    · simp only [List.mem_singleton] at hmem
      subst hmem
      simp at hd

theorem noOverlap_excludeForDay (id date ws : String) (hs : List Habit)
    (hinv : NoOverlap hs) : NoOverlap (excludeForDay id date ws hs) := by
  cases hfind : hs.find? (fun h => h.id == id) with
  | none =>
    have heq : excludeForDay id date ws hs = hs := by
      simp only [excludeForDay, deleteHabit, hfind]
    rw [heq]
    exact hinv
  | some habit =>
    rw [excludeForDay_eq_map id date ws hs habit hfind]
    intro h2 h2mem
    obtain ⟨h, hh, rfl⟩ := List.mem_map.mp h2mem
    intro d hd
    by_cases hid : h.id = id
    · by_cases hmem : date ∈ h.excludedDates.getD []
      · have e : exclStep id date h = h := by simp [exclStep, hid, hmem]
        rw [e] at hd ⊢
        exact hinv h hh d hd
      · have e : exclStep id date h =
            { h with
              completedDates := h.completedDates.filter (fun d => d != date),
              excludedDates := some (h.excludedDates.getD [] ++ [date]) } := by
          simp [exclStep, hid, hmem]
        rw [e] at hd ⊢
        simp only [List.mem_filter, bne_iff_ne] at hd
        simp only [Option.getD_some]
        intro hcon
        rcases List.mem_append.mp hcon with hc | hc
        · exact hinv h hh d hd.1 hc
        · simp only [List.mem_singleton] at hc
          exact hd.2 hc
    · have e : exclStep id date h = h := by simp [exclStep, hid]
      rw [e] at hd ⊢
      exact hinv h hh d hd

theorem noOverlap_removeOrArchive (id ws : String) (hs : List Habit)
    (hinv : NoOverlap hs) : NoOverlap (removeOrArchive id ws hs) := by
  cases hfind : hs.find? (fun h => h.id == id) with
  | none =>
    have heq : removeOrArchive id ws hs = hs := by
      simp only [removeOrArchive, deleteHabit, hfind]
    rw [heq]
    exact hinv
  | some habit =>
    by_cases hany : habit.completedDates.any (fun d => decide (strlt d ws)) = true
    · have heq : removeOrArchive id ws hs =
          hs.map (fun h => if h.id = id then { h with archivedAt := some ws } else h) := by
        simp only [removeOrArchive, deleteHabit, hfind, hany, if_true]
      rw [heq]
      intro h2 h2mem
      obtain ⟨h, hh, rfl⟩ := List.mem_map.mp h2mem
      intro d hd
      by_cases hid : h.id = id
      · rw [if_pos hid] at hd ⊢
        exact hinv h hh d hd
      · rw [if_neg hid] at hd ⊢
        exact hinv h hh d hd
    · have hany2 : habit.completedDates.any (fun d => decide (strlt d ws)) = false :=
        Bool.not_eq_true _ ▸ eq_false_of_ne_true hany
      have heq : removeOrArchive id ws hs = hs.filter (fun h => h.id != id) := by
        simp only [removeOrArchive, deleteHabit, hfind, hany2, Bool.false_eq_true, if_false]
      rw [heq]
      intro h2 h2mem
      exact hinv h2 (List.mem_filter.mp h2mem).1

theorem noOverlap_applyOp (op : Op) (hs : List Habit) (hinv : NoOverlap hs)
    (hsafe : SafeOp op hs) : NoOverlap (applyOp op hs) := by
  cases op with
  | toggle id d => exact noOverlap_toggleHabit id d hs hinv hsafe
  | toggleRem id t => exact noOverlap_toggleReminder id t hs hinv hsafe
  | create i t k w => exact noOverlap_addHabit i t k w hs hinv
  | exclude id d w => exact noOverlap_excludeForDay id d w hs hinv
  | remove id w => exact noOverlap_removeOrArchive id w hs hinv

/-- C3 (amended): starting from a collection in which no habit has a date
in both completedDates and excludedDates, any sequence of mutation engine
operations preserves that invariant, provided each completion toggle and
each reminder toggle targets a date not currently in its habit's
excludedDates (the UI guarantees this for completion toggles by offering
them only on day-active habits); without that proviso a toggle can
re-complete an excluded date. -/
theorem noOverlap_invariant (ops : List Op) (hs : List Habit)
    (hinv : NoOverlap hs) (hsafe : SafeTrace ops hs) :
    NoOverlap (applyOps ops hs) := by
  induction ops generalizing hs with
  | nil => exact hinv
  | cons op ops ih =>
    obtain ⟨h1, h2⟩ := hsafe
    exact ih (applyOp op hs) (noOverlap_applyOp op hs hinv h1) h2

/-- Concrete habit with an excluded date and no completions. -/
def excludedOnlyHabit : Habit :=
  ⟨"1", "run", Category.OTHER, HabitType.habit, [], "2024-01-01", none, some ["2024-03-11"]⟩

/-- C3 counterexample: from a collection satisfying the invariant, a single
toggleCompletion on a date already excluded for the habit (an operation the
claim quantifies over) yields a habit holding the date in both
completedDates and excludedDates. -/
theorem noOverlap_cex :
    NoOverlap [excludedOnlyHabit] ∧
    ¬ NoOverlap (applyOps [Op.toggle "1" "2024-03-11"] [excludedOnlyHabit]) := by
  decide

theorem noOverlap_invariant_witness :
    NoOverlap (applyOps
      [Op.create "1" "run" HabitType.habit "2024-03-10",
       Op.toggle "1" "2024-03-11",
       Op.exclude "1" "2024-03-12" "2024-03-10",
       Op.toggleRem "1" "2024-03-20",
       Op.remove "1" "2024-03-10"] []) :=
  noOverlap_invariant _ [] (by decide) (by decide)

theorem mem_weeklyDataPoints (w : List String) (dh : List Habit) (p : WeeklyDataPoint)
    (hp : p ∈ weeklyDataPoints w dh) :
    p.completed = dayCompletedCount p.fullDate dh ∧
    p.total = dayTotalCount p.fullDate dh ∧
    p.completed ≤ p.total := by
  obtain ⟨iso, _, rfl⟩ := List.mem_map.mp hp
  refine ⟨?_, rfl, ?_⟩
  · simp [dayCompletedCount, List.countP_eq_length_filter]
  · exact List.countP_le_length _

theorem sum_le_aux (l : List WeeklyDataPoint) (h : ∀ p ∈ l, p.completed ≤ p.total) :
    ∀ a b : Nat, a ≤ b →
      l.foldl (fun acc p => acc + p.completed) a ≤ l.foldl (fun acc p => acc + p.total) b := by
  induction l with
  | nil => intro a b hab; exact hab
  | cons p t ih =>
    intro a b hab
    exact ih (fun q hq => h q (List.mem_cons_of_mem p hq)) _ _
      (Nat.add_le_add hab (h p (List.mem_cons_self p t)))

theorem completedWeekly_le_totalWeekly (w : List String) (dh : List Habit) :
    completedWeeklyTasks w dh ≤ totalWeeklyTasks w dh := by
  unfold completedWeeklyTasks totalWeeklyTasks
  exact sum_le_aux (weeklyDataPoints w dh)
    (fun p hp => (mem_weeklyDataPoints w dh p hp).2.2) 0 0 (le_refl 0)

/-- C6 (amended): each day's completed count is the number of day-active
habits completed that day, the total is the size of the day-active set, the
day's rate is 100 times completed over total (0 when the total is 0), the
weekly rate is 100 times the summed completions over the summed totals (0
when the weekly total is 0, never undefined), and the weekly rate is 0
exactly when the weekly completed count is 0. -/
theorem weeklyData_spec (w : List String) (dh : List Habit) :
    (∀ p ∈ weeklyDataPoints w dh,
        p.completed = dayCompletedCount p.fullDate dh ∧
        p.total = dayTotalCount p.fullDate dh ∧
        p.completed ≤ p.total) ∧
    (∀ iso : String,
        (0 < dayTotalCount iso dh →
          dayPercentage iso dh =
            (dayCompletedCount iso dh : ℚ) / (dayTotalCount iso dh : ℚ) * 100) ∧
        (dayTotalCount iso dh = 0 → dayPercentage iso dh = 0)) ∧
    (0 < totalWeeklyTasks w dh →
        weeklyCompletionRate w dh =
          (completedWeeklyTasks w dh : ℚ) / (totalWeeklyTasks w dh : ℚ) * 100) ∧
    (totalWeeklyTasks w dh = 0 → weeklyCompletionRate w dh = 0) ∧
    (weeklyCompletionRate w dh = 0 ↔ completedWeeklyTasks w dh = 0) := by
  refine ⟨fun p hp => mem_weeklyDataPoints w dh p hp, ?_, ?_, ?_, ?_⟩
  · intro iso
    exact ⟨fun h => by rw [dayPercentage, if_pos h],
           fun h => by rw [dayPercentage, if_neg (by omega)]⟩
  · intro h
    rw [weeklyCompletionRate, if_pos h]
  · intro h
    rw [weeklyCompletionRate, if_neg (by omega)]
  · constructor
    · intro hrate
      by_contra hc
      have hcpos : 0 < completedWeeklyTasks w dh := Nat.pos_of_ne_zero hc
      have htpos : 0 < totalWeeklyTasks w dh :=
        lt_of_lt_of_le hcpos (completedWeekly_le_totalWeekly w dh)
      rw [weeklyCompletionRate, if_pos htpos] at hrate
      have h1 : (0 : ℚ) < (completedWeeklyTasks w dh : ℚ) := by exact_mod_cast hcpos
      have h2 : (0 : ℚ) < (totalWeeklyTasks w dh : ℚ) := by exact_mod_cast htpos
      have hpos : (0 : ℚ) <
          (completedWeeklyTasks w dh : ℚ) / (totalWeeklyTasks w dh : ℚ) * 100 :=
        mul_pos (div_pos h1 h2) (by norm_num)
      exact absurd hrate (ne_of_gt hpos)
    · intro hc
      rw [weeklyCompletionRate, hc]
      simp

/-- Concrete habit active and never completed during the sample week. -/
def noneDoneHabit : Habit :=
  ⟨"1", "run", Category.OTHER, HabitType.habit, [], "2024-03-10", none, some []⟩

/-- Concrete habit completed on all seven days of the sample week. -/
def allDoneHabit : Habit :=
  ⟨"1", "run", Category.OTHER, HabitType.habit, sampleWeek, "2024-03-10", none, some []⟩

/-- C6 counterexample: with one habit active all week and never completed
the weekly rate is 0 while the weekly total is 7, refuting rate-is-0
exactly-when total-is-0; and with the habit completed every day the rate is
100, not the plain quotient of the sums (the source scales by 100). -/
theorem weeklyRate_cex :
    weeklyCompletionRate sampleWeek (dailyHabits "2024-03-10" "2024-03-16" [noneDoneHabit]) = 0 ∧
    totalWeeklyTasks sampleWeek (dailyHabits "2024-03-10" "2024-03-16" [noneDoneHabit]) ≠ 0 ∧
    weeklyCompletionRate sampleWeek (dailyHabits "2024-03-10" "2024-03-16" [allDoneHabit]) ≠
      (completedWeeklyTasks sampleWeek (dailyHabits "2024-03-10" "2024-03-16" [allDoneHabit]) : ℚ) /
        (totalWeeklyTasks sampleWeek (dailyHabits "2024-03-10" "2024-03-16" [allDoneHabit]) : ℚ) := by
  have hc0 : completedWeeklyTasks sampleWeek
      (dailyHabits "2024-03-10" "2024-03-16" [noneDoneHabit]) = 0 := by decide
  have ht0 : totalWeeklyTasks sampleWeek
      (dailyHabits "2024-03-10" "2024-03-16" [noneDoneHabit]) = 7 := by decide
  have hc1 : completedWeeklyTasks sampleWeek
      (dailyHabits "2024-03-10" "2024-03-16" [allDoneHabit]) = 7 := by decide
  have ht1 : totalWeeklyTasks sampleWeek
      (dailyHabits "2024-03-10" "2024-03-16" [allDoneHabit]) = 7 := by decide
  refine ⟨?_, ?_, ?_⟩
  · rw [weeklyCompletionRate, hc0, ht0]
    norm_num
  · rw [ht0]
    norm_num
  · rw [weeklyCompletionRate, hc1, ht1]
    norm_num

theorem weeklyData_spec_witness :
    weeklyCompletionRate sampleWeek (dailyHabits "2024-03-10" "2024-03-16" [noneDoneHabit]) = 0 :=
  (weeklyData_spec sampleWeek
      (dailyHabits "2024-03-10" "2024-03-16" [noneDoneHabit])).2.2.2.2.mpr (by decide)

/-- The weekday (0 = Sunday) of an ISO date given by its epoch day. -/
def isoWeekday (iso : Int) : Int := (iso + 4) % 7

/-- C7: the resolved week window is an ordered run of exactly 7 consecutive
day descriptors, its first day is the Sunday on or before the reference
date, its last day is the following Saturday, and re-resolving from the
window's own first ISO date reproduces the window, whatever the reference
date's weekday or time of day. -/
theorem weekWindow_spec (d : DateVal) :
    (weekWindow d).length = 7 ∧
    isoWeekday (((weekWindow d).getD 0 defaultDescriptor).iso) = 0 ∧
    ((weekWindow d).getD 0 defaultDescriptor).iso ≤ d.day ∧
    d.day ≤ ((weekWindow d).getD 0 defaultDescriptor).iso + 6 ∧
    ((weekWindow d).getD 6 defaultDescriptor).iso =
      ((weekWindow d).getD 0 defaultDescriptor).iso + 6 ∧
    isoWeekday (((weekWindow d).getD 6 defaultDescriptor).iso) = 6 ∧
    List.Chain' (fun a b => b.iso = a.iso + 1) (weekWindow d) ∧
    weekWindow (dateOfIso (((weekWindow d).getD 0 defaultDescriptor).iso)) = weekWindow d := by
  have hrange : List.range 7 = [0, 1, 2, 3, 4, 5, 6] := rfl
  refine ⟨?_, ?_, ?_, ?_, ?_, ?_, ?_, ?_⟩
  · simp [weekWindow, weekDates]
  · simp only [weekWindow, weekDates, hrange, List.map_cons, List.map_nil,
      List.getD_cons_zero, mkDayDescriptor, addDays, getWeekStart, getISODate,
      getDayOfWeek, isoWeekday]
    omega
  · simp only [weekWindow, weekDates, hrange, List.map_cons, List.map_nil,
      List.getD_cons_zero, mkDayDescriptor, addDays, getWeekStart, getISODate,
      getDayOfWeek]
    omega
  · simp only [weekWindow, weekDates, hrange, List.map_cons, List.map_nil,
      List.getD_cons_zero, mkDayDescriptor, addDays, getWeekStart, getISODate,
      getDayOfWeek]
    omega
  · simp only [weekWindow, weekDates, hrange, List.map_cons, List.map_nil,
      List.getD_cons_zero, List.getD_cons_succ, mkDayDescriptor, addDays,
      getWeekStart, getISODate, getDayOfWeek]
    omega
  · simp only [weekWindow, weekDates, hrange, List.map_cons, List.map_nil,
      List.getD_cons_zero, List.getD_cons_succ, mkDayDescriptor, addDays,
      getWeekStart, getISODate, getDayOfWeek, isoWeekday]
    omega
  · simp only [weekWindow, weekDates, hrange, List.map_cons, List.map_nil,
      mkDayDescriptor, addDays, getWeekStart, getISODate, getDayOfWeek,
      List.chain'_cons, List.chain'_singleton, and_true]
    omega
  · have hstart : dateOfIso (((weekWindow d).getD 0 defaultDescriptor).iso) =
        ⟨d.day - (d.day + 4) % 7, 0⟩ := by
      simp [weekWindow, weekDates, hrange, mkDayDescriptor, addDays, getWeekStart,
        getISODate, getDayOfWeek, dateOfIso]
    rw [hstart]
    have hgw1 : getWeekStart ⟨d.day - (d.day + 4) % 7, 0⟩ =
        ⟨d.day - (d.day + 4) % 7, 0⟩ := by
      simp only [getWeekStart, getDayOfWeek, DateVal.mk.injEq]
      exact ⟨by omega, trivial⟩
    have hgw2 : getWeekStart d = ⟨d.day - (d.day + 4) % 7, d.tod⟩ := by
      simp [getWeekStart, getDayOfWeek]
    rw [weekWindow, weekWindow, hgw1, hgw2]
    simp [weekDates, mkDayDescriptor, addDays, getISODate, getDayOfWeek]

theorem weekWindow_spec_witness :
    (weekWindow ⟨19803, 12345⟩).length = 7 :=
  (weekWindow_spec ⟨19803, 12345⟩).1

/-- C9: evaluation of the insight parser at the failing input. The claim
says leading bullet markers are stripped, and the Remove-bullet-points
comment on the source regex documents that intent, but the regex class in
the file is a misdecoding of the bullet character U+2022: a line opening
with the real bullet is returned with the bullet intact, a line opening
with the misdecoded three-character sequence loses only its first
character, and only hyphen and asterisk bullets are stripped as intended.
The failure-fallback of exactly 3 fixed tips does hold. -/
theorem getHabitAnalysis_bullet_bug :
    getHabitAnalysis (AIResponse.success
        (some "• Keep a morning routine\nâ€¢ Stay hydrated today\n- Review goals weekly")) =
      ["• Keep a morning routine", "€¢ Stay hydrated today", "Review goals weekly"] ∧
    getHabitAnalysis AIResponse.failure = fallbackTips ∧ fallbackTips.length = 3 := by
  decide

end ZenHabit
